import Mathlib

/-!
Shallow embedding of `src/cheatsheet_Recursive_Patterns_FP_ES6.js`.

Sequences are modelled as Lean lists.  The source's head/tail destructuring
`([x, ...xs]) => ...` together with the guard `def(x)` (false exactly when the
destructured head is the JS `undefined`, i.e. when the array is empty) is
modelled by pattern matching on the list: the `[]` branch is the branch where
`def(x)` is false.  For the one claim about arrays that contain the
`undefined` sentinel as an element, elements are modelled as `Option` values
(`none` = `undefined`) in the `U`-suffixed variants below.  JS numbers are
modelled as integers; `Infinity` / `-Infinity` are modelled by `WithTop Int` /
`WithBot Int`.
-/

namespace Cheatsheet

universe u v

/-- Source line 33, tail: the arrow function of one array argument
returning all but the first item; on the empty array the rest pattern
yields the empty array. -/
def tail {α : Type u} : List α → List α
  | [] => []
  | _ :: xs => xs

/-- Source line 78, length (plain variant): one plus the length of the
tail when the destructured head is defined, zero otherwise. -/
def length1 {α : Type u} : List α → Nat
  | [] => 0
  | _ :: xs => 1 + length1 xs

/-- Source line 89, reverse: the reversed tail with the head appended at
the end when the head is defined, the empty array otherwise. -/
def reverse {α : Type u} : List α → List α
  | [] => []
  | x :: xs => reverse xs ++ [x]

/-- Source lines 107-108, first: keeps the head while it is defined and
the count argument is truthy (a JS number is truthy iff it is nonzero),
recursing with the count decremented.  The count is an integer. -/
def first {α : Type u} : List α → Int → List α
  | [], _ => []
  | x :: xs, n => if n ≠ 0 then x :: first xs (n - 1) else []

/-- Source lines 123-128, slice: walks the array with a position counter
`curr`, emitting `y` just before the element at which `curr` equals `i`;
when the array runs out it returns the empty array. -/
def slice {α : Type u} : List α → Nat → α → Nat → List α
  | [], _, _, _ => []
  | x :: xs, i, y, curr =>
    if curr = i then y :: x :: slice xs i y (curr + 1)
    else x :: slice xs i y (curr + 1)

/-- Source line 174, map (simplified variant): applies the callback to the
head and recurses while the head is defined. -/
def map {α : Type u} {β : Type v} : List α → (α → β) → List β
  | [], _ => []
  | x :: xs, fn => fn x :: map xs fn

/-- Source lines 191-192, filter (simplified variant): keeps the head when
the callback holds, drops it otherwise. -/
def filter {α : Type u} : List α → (α → Bool) → List α
  | [], _ => []
  | x :: xs, fn => if fn x then x :: filter xs fn else filter xs fn

/-- Source lines 203-210, reject: keeps the head exactly when the callback
fails. -/
def reject {α : Type u} : List α → (α → Bool) → List α
  | [], _ => []
  | x :: xs, fn => if fn x then reject xs fn else x :: reject xs fn

/-- Source line 220, partition: the pair of the filtered and the rejected
elements. -/
def partition {α : Type u} (xs : List α) (fn : α → Bool) : List α × List α :=
  (filter xs fn, reject xs fn)

/-- Source lines 404-405, reduce: folds the combining function over the
array left to right, threading the accumulator and the element index. -/
def reduce {α : Type u} {β : Type v} : List α → (β → α → Nat → β) → β → Nat → β
  | [], _, memo, _ => memo
  | x :: xs, fn, memo, i => reduce xs fn (fn memo x i) (i + 1)

/-- Source line 407, reverse as a reduction. -/
def reverseR {α : Type u} (xs : List α) : List α :=
  reduce xs (fun memo x _ => x :: memo) [] 0

/-- Source line 409, length as a reduction. -/
def lengthR {α : Type u} (xs : List α) : Nat :=
  reduce xs (fun memo _ _ => memo + 1) 0 0

/-- Source line 411, map as a reduction. -/
def mapR {α : Type u} {β : Type v} (xs : List α) (fn : α → β) : List β :=
  reduce xs (fun memo x _ => memo ++ [fn x]) [] 0

/-- Source lines 413-414, filter as a reduction. -/
def filterR {α : Type u} (xs : List α) (fn : α → Bool) : List α :=
  reduce xs (fun memo x _ => if fn x then memo ++ [x] else memo) [] 0

/-- Source lines 416-417, reject as a reduction. -/
def rejectR {α : Type u} (xs : List α) (fn : α → Bool) : List α :=
  reduce xs (fun memo x _ => if fn x then memo else memo ++ [x]) [] 0

/-- Source lines 419-420, first as a reduction: keeps the elements whose
index is below the integer count. -/
def firstR {α : Type u} (xs : List α) (n : Int) : List α :=
  reduce xs (fun memo x i => if (i : Int) < n then memo ++ [x] else memo) [] 0

/-- Source line 309, flow: reduces the array of functions, each consuming
the accumulator produced by the previous one, starting from the initial
value. -/
def flow {α : Type u} (args : List (α → α)) (x : α) : α :=
  reduce args (fun memo fn _ => fn memo) x 0

/-- Source line 331, compose: flow with the array of functions reversed
(the source calls the line-89 reverse on its rest argument). -/
def compose {α : Type u} (args : List (α → α)) : α → α :=
  flow (reverse args)

/-- Source lines 156-161, swap: maps over the array with the two-parameter
arrow `(x, y) => y===i ? a[j] : y===j ? a[i] : x`.  Every `map` in the
source applies its callback to the element alone, so the second parameter
`y` is the JS `undefined`, modelled as `(none : Option Nat)`; the strict
comparison of `undefined` with a number is false.  The indexings `a[j]`,
`a[i]` may themselves be undefined, so elements of the result are modelled
in `Option Int` (`List.get?` is `none` out of range, like JS indexing). -/
def swap (a : List Int) (i j : Nat) : List (Option Int) :=
  map a (fun x =>
    if (none : Option Nat) = some i then a.get? j
    else if (none : Option Nat) = some j then a.get? i
    else some x)

/-- Source lines 344-345, min: when the head is defined and below the
running result it recurses with the head as the new result; otherwise it
returns the running result at once.  The default running result is
`Infinity`, modelled as the top element of `WithTop Int`. -/
def jsmin : List Int → WithTop Int → WithTop Int
  | [], result => result
  | x :: xs, result =>
    if (x : WithTop Int) < result then jsmin xs (x : Int) else result

/-- Source lines 353-354, max: recurses on the tail with the larger of the
head and the running result; the default running result is `-Infinity`,
modelled as the bottom element of `WithBot Int`. -/
def jsmax : List Int → WithBot Int → WithBot Int
  | [], result => result
  | x :: xs, result =>
    if result < (x : WithBot Int) then jsmax xs (x : Int) else jsmax xs result

/-- A JS value that is either a number-like atom or a nested array, the
value space over which the source's `flatten` (lines 143-148) operates. -/
inductive Nested (α : Type u) : Type u where
  | atom : α → Nested α
  | seq : List (Nested α) → Nested α

/-- Source line 136, isArray. -/
def isArray {α : Type u} : Nested α → Bool
  | .atom _ => false
  | .seq _ => true

/-- Source lines 143-148, flatten: while the head is defined, splices the
head's own flattening when it is an array, else emits the head. -/
def flatten {α : Type u} : List (Nested α) → List α
  | [] => []
  | Nested.seq l :: xs => flatten l ++ flatten xs
  | Nested.atom a :: xs => a :: flatten xs

theorem filter_length_le {α : Type u} (xs : List α) (fn : α → Bool) :
    (filter xs fn).length ≤ xs.length := by
  induction xs with
  | nil => simp [filter]
  | cons x xs ih =>
    simp only [filter]
    split
    · simpa using Nat.succ_le_succ ih
    · exact Nat.le_succ_of_le ih

theorem reject_length_le {α : Type u} (xs : List α) (fn : α → Bool) :
    (reject xs fn).length ≤ xs.length := by
  induction xs with
  | nil => simp [reject]
  | cons x xs ih =>
    simp only [reject]
    split
    · exact Nat.le_succ_of_le ih
    · simpa using Nat.succ_le_succ ih

/-- Source lines 380-387, quicksort (filter variant): on a non-truthy
length the empty array; otherwise the flattening of the array holding the
sorted filtering of the tail by being at most the head, the head, and the
sorted filtering of the tail by exceeding the head.  The recursive results
are nested arrays inside the argument of `flatten`, hence the
`Nested.atom` injections. -/
def quicksort : List Int → List Int
  | [] => []
  | p :: t =>
    flatten [Nested.seq ((quicksort (filter t (fun x => decide (x ≤ p)))).map Nested.atom),
             Nested.atom p,
             Nested.seq ((quicksort (filter t (fun x => decide (x > p)))).map Nested.atom)]
termination_by xs => xs.length
decreasing_by
  all_goals
    simp only [List.length_cons]
    exact Nat.lt_succ_of_le (filter_length_le t _)

/-- Source lines 390-394, quicksort (partition variant): partitions the
tail by being strictly below the head into `less` and `more`, and returns
the flattening of sorted `less`, the head, and sorted `more`. -/
def quicksort2 : List Int → List Int
  | [] => []
  | p :: t =>
    let lm := partition t (fun x => decide (x < p))
    flatten [Nested.seq ((quicksort2 lm.1).map Nested.atom),
             Nested.atom p,
             Nested.seq ((quicksort2 lm.2).map Nested.atom)]
termination_by xs => xs.length
decreasing_by
  · simp only [partition, List.length_cons]
    exact Nat.lt_succ_of_le (filter_length_le t _)
  · simp only [partition, List.length_cons]
    exact Nat.lt_succ_of_le (reject_length_le t _)

/-- Source line 45: the `def` predicate, true iff its argument is not the
JS `undefined`; an element that may be `undefined` is an `Option`. -/
def jsdef {α : Type u} : Option α → Bool
  | none => false
  | some _ => true

/-- Source line 76, length (accumulator variant), over arrays that may
hold the `undefined` sentinel as an element: the guard `def(x)` fails both
past the end of the array and at an `undefined` element. -/
def lengthU {α : Type u} : List (Option α) → Nat → Nat
  | [], len => len
  | none :: _, len => len
  | some _ :: xs, len => lengthU xs (len + 1)

/-- Source line 174, map, over arrays that may hold the `undefined`
sentinel as an element. -/
def mapU {α : Type u} {β : Type v} : List (Option α) → (α → β) → List β
  | [], _ => []
  | none :: _, _ => []
  | some x :: xs, fn => fn x :: mapU xs fn

/-- Source line 89, reverse, over arrays that may hold the `undefined`
sentinel as an element. -/
def reverseU {α : Type u} : List (Option α) → List α
  | [] => []
  | none :: _ => []
  | some x :: xs => reverseU xs ++ [x]

/-! Bridge lemmas relating the embedded recursions to the Lean list
library, shared by the claim theorems below. -/

theorem filter_eq {α : Type u} (xs : List α) (fn : α → Bool) :
    filter xs fn = xs.filter fn := by
  induction xs with
  | nil => rfl
  | cons x xs ih =>
    simp only [filter, List.filter_cons]
    split <;> simp_all

theorem reject_eq {α : Type u} (xs : List α) (fn : α → Bool) :
    reject xs fn = xs.filter (fun x => !fn x) := by
  induction xs with
  | nil => rfl
  | cons x xs ih =>
    simp only [reject, List.filter_cons]
    by_cases h : fn x <;> simp_all

theorem map_eq {α : Type u} {β : Type v} (xs : List α) (fn : α → β) :
    map xs fn = xs.map fn := by
  induction xs with
  | nil => rfl
  | cons x xs ih => simp [map, ih]

theorem reverse_eq {α : Type u} (xs : List α) :
    reverse xs = xs.reverse := by
  induction xs with
  | nil => rfl
  | cons x xs ih => simp [reverse, ih]

theorem length1_eq {α : Type u} (xs : List α) :
    length1 xs = xs.length := by
  induction xs with
  | nil => rfl
  | cons x xs ih => simp [length1, ih]; omega

theorem flatten_map_atom {α : Type u} (l : List α) :
    flatten (l.map Nested.atom) = l := by
  induction l with
  | nil => simp [flatten]
  | cons x xs ih => simp [flatten, ih]

theorem quicksort_cons (p : Int) (t : List Int) :
    quicksort (p :: t) =
      quicksort (filter t (fun x => decide (x ≤ p))) ++
        p :: quicksort (filter t (fun x => decide (x > p))) := by
  rw [quicksort]
  simp [flatten, flatten_map_atom]

theorem quicksort2_cons (p : Int) (t : List Int) :
    quicksort2 (p :: t) =
      quicksort2 (filter t (fun x => decide (x < p))) ++
        p :: quicksort2 (reject t (fun x => decide (x < p))) := by
  rw [quicksort2]
  simp [partition, flatten, flatten_map_atom]

theorem decide_gt_eq_not_le (p : Int) :
    (fun x : Int => decide (x > p)) = fun x : Int => !decide (x ≤ p) := by
  funext x
  rcases lt_or_le p x with h | h
  · simp [h, h.not_le]
  · simp [h, h.not_lt]

theorem quicksort_perm : ∀ xs : List Int, List.Perm (quicksort xs) xs
  | [] => by simp [quicksort]
  | p :: t => by
    rw [quicksort_cons]
    have hl := quicksort_perm (filter t (fun x => decide (x ≤ p)))
    have hr := quicksort_perm (filter t (fun x => decide (x > p)))
    refine List.Perm.trans (hl.append (hr.cons p)) ?_
    refine List.Perm.trans List.perm_middle ?_
    refine List.Perm.cons p ?_
    rw [filter_eq, filter_eq, decide_gt_eq_not_le]
    exact List.filter_append_perm _ t
termination_by xs => xs.length
decreasing_by
  all_goals
    simp only [List.length_cons]
    exact Nat.lt_succ_of_le (filter_length_le t _)

theorem quicksort_sorted : ∀ xs : List Int, List.Sorted (· ≤ ·) (quicksort xs)
  | [] => by simp [quicksort]
  | p :: t => by
    rw [quicksort_cons]
    have hl := quicksort_sorted (filter t (fun x => decide (x ≤ p)))
    have hr := quicksort_sorted (filter t (fun x => decide (x > p)))
    have hml : ∀ a ∈ quicksort (filter t (fun x => decide (x ≤ p))), a ≤ p := by
      intro a ha
      have h := (quicksort_perm _).mem_iff.mp ha
      rw [filter_eq, List.mem_filter] at h
      exact of_decide_eq_true h.2
    have hmr : ∀ b ∈ quicksort (filter t (fun x => decide (x > p))), p < b := by
      intro b hb
      have h := (quicksort_perm _).mem_iff.mp hb
      rw [filter_eq, List.mem_filter] at h
      exact of_decide_eq_true h.2
    refine List.pairwise_append.mpr ⟨hl, ?_, ?_⟩
    · exact List.pairwise_cons.mpr ⟨fun b hb => (hmr b hb).le, hr⟩
    · intro a ha b hb
      rcases List.mem_cons.mp hb with rfl | hb
      · exact hml a ha
      · exact (hml a ha).trans (hmr b hb).le
termination_by xs => xs.length
decreasing_by
  all_goals
    simp only [List.length_cons]
    exact Nat.lt_succ_of_le (filter_length_le t _)

theorem quicksort2_perm : ∀ xs : List Int, List.Perm (quicksort2 xs) xs
  | [] => by simp [quicksort2]
  | p :: t => by
    rw [quicksort2_cons]
    have hl := quicksort2_perm (filter t (fun x => decide (x < p)))
    have hr := quicksort2_perm (reject t (fun x => decide (x < p)))
    refine List.Perm.trans (hl.append (hr.cons p)) ?_
    refine List.Perm.trans List.perm_middle ?_
    refine List.Perm.cons p ?_
    rw [filter_eq, reject_eq]
    exact List.filter_append_perm _ t
termination_by xs => xs.length
decreasing_by
  · simp only [List.length_cons]
    exact Nat.lt_succ_of_le (filter_length_le t _)
  · simp only [List.length_cons]
    exact Nat.lt_succ_of_le (reject_length_le t _)

theorem quicksort2_sorted : ∀ xs : List Int, List.Sorted (· ≤ ·) (quicksort2 xs)
  | [] => by simp [quicksort2]
  | p :: t => by
    rw [quicksort2_cons]
    have hl := quicksort2_sorted (filter t (fun x => decide (x < p)))
    have hr := quicksort2_sorted (reject t (fun x => decide (x < p)))
    have hml : ∀ a ∈ quicksort2 (filter t (fun x => decide (x < p))), a < p := by
      intro a ha
      have h := (quicksort2_perm _).mem_iff.mp ha
      rw [filter_eq, List.mem_filter] at h
      exact of_decide_eq_true h.2
    have hmr : ∀ b ∈ quicksort2 (reject t (fun x => decide (x < p))), p ≤ b := by
      intro b hb
      have h := (quicksort2_perm _).mem_iff.mp hb
      rw [reject_eq, List.mem_filter] at h
      have h2 : decide (b < p) = false := by simpa using h.2
      exact not_lt.mp (of_decide_eq_false h2)
    refine List.pairwise_append.mpr ⟨hl, ?_, ?_⟩
    · exact List.pairwise_cons.mpr ⟨fun b hb => hmr b hb, hr⟩
    · intro a ha b hb
      rcases List.mem_cons.mp hb with rfl | hb
      · exact (hml a ha).le
      · exact (hml a ha).le.trans (hmr b hb)
termination_by xs => xs.length
decreasing_by
  · simp only [List.length_cons]
    exact Nat.lt_succ_of_le (filter_length_le t _)
  · simp only [List.length_cons]
    exact Nat.lt_succ_of_le (reject_length_le t _)

/-! Accumulator-generalised characterisations of the reduce-based
formulations (source lines 404-420). -/

theorem reduce_rev {α : Type u} :
    ∀ (xs : List α) (memo : List α) (i : Nat),
      reduce xs (fun memo x _ => x :: memo) memo i = xs.reverse ++ memo
  | [], memo, i => by simp [reduce]
  | x :: xs, memo, i => by
    simp [reduce, reduce_rev xs (x :: memo) (i + 1)]

theorem reduce_len {α : Type u} :
    ∀ (xs : List α) (memo : Nat) (i : Nat),
      reduce xs (fun memo _ _ => memo + 1) memo i = memo + xs.length
  | [], memo, i => by simp [reduce]
  | x :: xs, memo, i => by
    simp [reduce, reduce_len xs (memo + 1) (i + 1)]
    omega

theorem reduce_map {α : Type u} {β : Type v} (fn : α → β) :
    ∀ (xs : List α) (memo : List β) (i : Nat),
      reduce xs (fun memo x _ => memo ++ [fn x]) memo i = memo ++ xs.map fn
  | [], memo, i => by simp [reduce]
  | x :: xs, memo, i => by
    simp [reduce, reduce_map fn xs (memo ++ [fn x]) (i + 1)]

theorem reduce_filter {α : Type u} (fn : α → Bool) :
    ∀ (xs : List α) (memo : List α) (i : Nat),
      reduce xs (fun memo x _ => if fn x then memo ++ [x] else memo) memo i =
        memo ++ xs.filter fn
  | [], memo, i => by simp [reduce]
  | x :: xs, memo, i => by
    by_cases h : fn x
    · simp [reduce, h, List.filter_cons, reduce_filter fn xs (memo ++ [x]) (i + 1)]
    · simp [reduce, h, List.filter_cons, reduce_filter fn xs memo (i + 1)]

theorem reduce_reject {α : Type u} (fn : α → Bool) :
    ∀ (xs : List α) (memo : List α) (i : Nat),
      reduce xs (fun memo x _ => if fn x then memo else memo ++ [x]) memo i =
        memo ++ xs.filter (fun x => !fn x)
  | [], memo, i => by simp [reduce]
  | x :: xs, memo, i => by
    by_cases h : fn x
    · simp [reduce, h, List.filter_cons, reduce_reject fn xs memo (i + 1)]
    · simp [reduce, h, List.filter_cons, reduce_reject fn xs (memo ++ [x]) (i + 1)]

/-- C1: for every finite numeric sequence `s`, `quicksort(s)` is
non-decreasing and is a permutation of `s` (same multiset of elements),
for both the filter-based and the partition-based definitions. -/
theorem quicksort_correct (s : List Int) :
    (List.Sorted (· ≤ ·) (quicksort s) ∧ List.Perm (quicksort s) s) ∧
      (List.Sorted (· ≤ ·) (quicksort2 s) ∧ List.Perm (quicksort2 s) s) :=
  ⟨⟨quicksort_sorted s, quicksort_perm s⟩, ⟨quicksort2_sorted s, quicksort2_perm s⟩⟩

/-- C9: quicksort terminates on every finite sequence because each
recursive call receives a filtering of the tail of its input, whose length
is strictly below the length of the input. -/
theorem quicksort_call_shrinks (xs : List Int) (fn : Int → Bool) (h : xs ≠ []) :
    (filter (tail xs) fn).length < xs.length := by
  match xs with
  | [] => exact absurd rfl h
  | p :: t =>
    simp only [tail, List.length_cons]
    exact Nat.lt_succ_of_le (filter_length_le t fn)

/-- Witness for C9 at the concrete input `[3, 1]` with the pivot
predicate of the first recursive call. -/
theorem quicksort_call_shrinks_witness :
    ([3, 1] : List Int) ≠ [] ∧
      (filter (tail ([3, 1] : List Int)) (fun x => decide (x ≤ 3))).length <
        ([3, 1] : List Int).length :=
  ⟨by decide, quicksort_call_shrinks [3, 1] (fun x => decide (x ≤ 3)) (by decide)⟩

/-- C3: the direct head/tail-recursive reverse, length, map, filter and
reject agree with their reduce-based formulations on every sequence and
every callback. -/
theorem fold_equivalence {α : Type u} {β : Type v}
    (xs : List α) (f : α → β) (pr : α → Bool) :
    reverse xs = reverseR xs ∧ length1 xs = lengthR xs ∧
      map xs f = mapR xs f ∧ filter xs pr = filterR xs pr ∧
      reject xs pr = rejectR xs pr := by
  refine ⟨?_, ?_, ?_, ?_, ?_⟩
  · rw [reverse_eq, reverseR, reduce_rev]
    simp
  · rw [length1_eq, lengthR, reduce_len]
    simp
  · rw [map_eq, mapR, reduce_map]
    simp
  · rw [filter_eq, filterR, reduce_filter]
    simp
  · rw [reject_eq, rejectR, reduce_reject]
    simp

/-- C4: reverse is an involution: reversing twice gives back the original
sequence. -/
theorem reverse_involution {α : Type u} (s : List α) :
    reverse (reverse s) = s := by
  rw [reverse_eq, reverse_eq, List.reverse_reverse]

/-- C8: compose applies its functions right to left and flow applies them
left to right: `compose(f,g,h)(x) = f(g(h(x)))` and
`flow(f,g,h)(x) = h(g(f(x)))`. -/
theorem compose_flow_law {α : Type u} (f g h : α → α) (x : α) :
    compose [f, g, h] x = f (g (h x)) ∧ flow [f, g, h] x = h (g (f x)) :=
  ⟨rfl, rfl⟩

theorem first_char {α : Type u} :
    ∀ (xs : List α) (n : Int),
      first xs n = if 0 ≤ n then xs.take n.toNat else xs
  | [], n => by simp [first]
  | x :: xs, n => by
    simp only [first]
    by_cases h : n = 0
    · subst h; simp
    · rw [if_pos h, first_char xs (n - 1)]
      rcases lt_trichotomy n 0 with hn | hn | hn
      · rw [if_neg (by omega), if_neg (by omega)]
      · exact absurd hn h
      · rw [if_pos (by omega : (0 : Int) ≤ n - 1), if_pos (by omega : (0 : Int) ≤ n)]
        have ht : n.toNat = (n - 1).toNat + 1 := by omega
        rw [ht, List.take_succ_cons]

theorem reduce_first {α : Type u} (n : Int) :
    ∀ (xs : List α) (memo : List α) (i : Nat),
      reduce xs (fun memo x i => if (i : Int) < n then memo ++ [x] else memo) memo i =
        memo ++ xs.take (n - i).toNat
  | [], memo, i => by simp [reduce]
  | x :: xs, memo, i => by
    simp only [reduce]
    by_cases h : (i : Int) < n
    · rw [if_pos h, reduce_first n xs (memo ++ [x]) (i + 1)]
      have ht : (n - i).toNat = (n - (i + 1 : Nat)).toNat + 1 := by push_cast; omega
      rw [ht, List.take_succ_cons, List.append_assoc, List.singleton_append]
    · rw [if_neg h, reduce_first n xs memo (i + 1)]
      have h1 : (n - i).toNat = 0 := by omega
      have h2 : (n - (i + 1 : Nat)).toNat = 0 := by push_cast; push_cast at h; omega
      rw [h1, h2]
      simp

theorem firstR_take {α : Type u} (xs : List α) (n : Int) :
    firstR xs n = xs.take n.toNat := by
  rw [firstR, reduce_first n xs [] 0]
  simp

/-- C5 counterexample: the claim says every `n <= 0` yields the empty
sequence, but the direct `first` at the negative count `-1` returns the
whole input, because a negative JS number is truthy. -/
theorem first_negative_counterexample :
    first ([1, 2, 3] : List Int) (-1) = [1, 2, 3] ∧ ([1, 2, 3] : List Int) ≠ [] := by
  decide

/-- C5 (amended): for `n >= 0` the direct `first` returns the leading
`min(n, length(s))` elements (so the default `n = 1` yields the leading
element and `n = 0` yields empty), but for negative `n` it returns all of
`s`; the reduce-based `first` returns the leading `min(n, length(s))`
elements for `n >= 0` and empty for negative `n`. -/
theorem first_take {α : Type u} (xs : List α) (n : Int) :
    first xs n = (if 0 ≤ n then xs.take n.toNat else xs) ∧
      firstR xs n = xs.take n.toNat ∧ first xs 1 = xs.take 1 := by
  refine ⟨first_char xs n, firstR_take xs n, ?_⟩
  rw [first_char xs 1]
  simp

theorem slice_char {α : Type u} (i : Nat) (y : α) :
    ∀ (xs : List α) (curr : Nat),
      slice xs i y curr =
        if curr ≤ i ∧ i - curr < xs.length then
          xs.take (i - curr) ++ y :: xs.drop (i - curr)
        else xs
  | [], curr => by simp [slice]
  | x :: xs, curr => by
    simp only [slice]
    by_cases h : curr = i
    · rw [if_pos h, slice_char i y xs (curr + 1), if_neg (by omega),
        if_pos ⟨by omega, by simp only [List.length_cons]; omega⟩]
      have h0 : i - curr = 0 := by omega
      rw [h0]
      simp
    · rw [if_neg h, slice_char i y xs (curr + 1)]
      by_cases hlt : curr < i
      · by_cases hlen : i - (curr + 1) < xs.length
        · rw [if_pos ⟨by omega, hlen⟩, if_pos ⟨by omega, by simp only [List.length_cons]; omega⟩]
          obtain ⟨k, hk⟩ : ∃ k, i - curr = k + 1 := ⟨i - curr - 1, by omega⟩
          have hk2 : i - (curr + 1) = k := by omega
          rw [hk, hk2, List.take_succ_cons, List.drop_succ_cons, List.cons_append]
        · rw [if_neg (by omega), if_neg (by simp only [List.length_cons]; omega)]
      · rw [if_neg (by omega), if_neg (by omega)]

/-- C6 counterexample: the claim says an out-of-range index appends the
value at the end, but at index 2 into the two-element sequence the value
is dropped entirely. -/
theorem slice_append_counterexample :
    slice ([1, 2] : List Int) 2 9 0 = [1, 2] ∧ ([1, 2] : List Int) ≠ [1, 2, 9] := by
  decide

/-- C6 (amended): slice inserts the value immediately before the 0-based
position `i` with the original elements keeping their relative order when
`i < length(s)`; when `i >= length(s)` the result is a copy of `s` and the
value is not inserted. -/
theorem slice_inserts {α : Type u} (xs : List α) (i : Nat) (y : α) :
    slice xs i y 0 =
      if i < xs.length then xs.take i ++ y :: xs.drop i else xs := by
  rw [slice_char]
  simp

/-- C7: the source's swap never exchanges anything: its map applies the
callback to the element alone, so the callback's index parameter stays
undefined and every comparison with the given indices fails.  At the
source's own example input the result is an unchanged copy, not the
documented exchange, and no failure is raised for any index. -/
theorem swap_no_op :
    swap [1, 2, 3, 4, 5] 0 4 = [some 1, some 2, some 3, some 4, some 5] ∧
      swap [1, 2, 3, 4, 5] 0 4 ≠ [some 5, some 2, some 3, some 4, some 1] := by
  decide

/-- C2: the source's min does not return the smallest element: the moment
the head fails to be below the running result it returns the running
result without scanning the rest, so on `[2, 3, 1]` it returns `2` even
though `1`, a strictly smaller element, is in the sequence.  The max of
the same sequence is computed correctly. -/
theorem min_stops_early :
    jsmin [2, 3, 1] ⊤ = (2 : WithTop Int) ∧ (1 : Int) ∈ ([2, 3, 1] : List Int) ∧
      ((1 : WithTop Int) < (2 : WithTop Int)) ∧ jsmax [2, 3, 1] ⊥ = (3 : WithBot Int) := by
  refine ⟨rfl, by decide, by decide, rfl⟩

theorem lengthU_stops {α : Type u} (t : List (Option α)) :
    ∀ (s : List (Option α)) (len : Nat), (∀ x ∈ s, x ≠ none) →
      lengthU (s ++ none :: t) len = len + s.length := by
  intro s
  induction s with
  | nil => intro len _; simp [lengthU]
  | cons x s ih =>
    intro len h
    match x with
    | none => exact absurd rfl (h none (List.mem_cons_self _ _))
    | some a =>
      simp only [List.cons_append, lengthU, List.length_cons, List.append_eq]
      rw [ih (len + 1) (fun z hz => h z (List.mem_cons_of_mem _ hz))]
      omega

theorem mapU_stops {α : Type u} {β : Type v} (t : List (Option α)) (fn : α → β) :
    ∀ s : List (Option α), (∀ x ∈ s, x ≠ none) →
      mapU (s ++ none :: t) fn = mapU s fn := by
  intro s
  induction s with
  | nil => intro _; simp [mapU]
  | cons x s ih =>
    intro h
    match x with
    | none => exact absurd rfl (h none (List.mem_cons_self _ _))
    | some a =>
      simp only [List.cons_append, mapU, List.append_eq]
      rw [ih (fun z hz => h z (List.mem_cons_of_mem _ hz))]

theorem reverseU_stops {α : Type u} (t : List (Option α)) :
    ∀ s : List (Option α), (∀ x ∈ s, x ≠ none) →
      reverseU (s ++ none :: t) = reverseU s := by
  intro s
  induction s with
  | nil => intro _; simp [reverseU]
  | cons x s ih =>
    intro h
    match x with
    | none => exact absurd rfl (h none (List.mem_cons_self _ _))
    | some a =>
      simp only [List.cons_append, reverseU, List.append_eq]
      rw [ih (fun z hz => h z (List.mem_cons_of_mem _ hz))]

/-- C10: a def-guarded recursion treats an undefined element inside the
sequence as end of input: when `s` holds no undefined element, length,
map and reverse applied to `s ++ [undefined] ++ t` process exactly the
prefix `s`. -/
theorem undef_sentinel_truncates {α : Type u} {β : Type v}
    (s t : List (Option α)) (fn : α → β) (h : ∀ x ∈ s, x ≠ none) :
    lengthU (s ++ none :: t) 0 = s.length ∧
      mapU (s ++ none :: t) fn = mapU s fn ∧
      reverseU (s ++ none :: t) = reverseU s := by
  refine ⟨?_, mapU_stops t fn s h, reverseU_stops t s h⟩
  rw [lengthU_stops t s 0 h]
  omega

/-- Witness for C10 at the concrete sequences `[some 1, some 2]` and
`[some 3]` around the undefined sentinel. -/
theorem undef_sentinel_truncates_witness :
    lengthU (([some 1, some 2] : List (Option Int)) ++ none :: [some 3]) 0 =
        ([some 1, some 2] : List (Option Int)).length ∧
      mapU (([some 1, some 2] : List (Option Int)) ++ none :: [some 3])
          (fun n => n + 1) =
        mapU ([some 1, some 2] : List (Option Int)) (fun n => n + 1) ∧
      reverseU (([some 1, some 2] : List (Option Int)) ++ none :: [some 3]) =
        reverseU ([some 1, some 2] : List (Option Int)) :=
  undef_sentinel_truncates [some 1, some 2] [some 3] (fun n => n + 1) (by decide)

end Cheatsheet
